import Mathlib

/-!
Verification of the Convention Index Engine of the laravel-enhanced
extension, as a shallow embedding of its extraction and merge logic.

The source operates on raw file text through regular expressions.  The
embedding starts where the regular-expression layer ends: each definition
below consumes the already-matched fragments (field names, cast entries,
column declarations, route-line matches) and reproduces, step by step, the
merge and resolution logic of the source.  String-level operations that the
source performs on the matched fragments (trim, toLowerCase, split, the
single-occurrence replace of JS) are modelled faithfully on Lean strings.
-/

namespace LaravelEnhanced

/-! ## String primitives

The JS string operations the extractors use (trim, toUpperCase,
toLowerCase, split, the single-occurrence replace of String.replace with a
string pattern), embedded as structural recursions over the character list
of a string so that every definition evaluates inside the kernel. -/

def trimL (l : List Char) : List Char :=
  ((l.dropWhile Char.isWhitespace).reverse.dropWhile Char.isWhitespace).reverse

/-- JS String.prototype.trim. -/
def trimString (s : String) : String :=
  String.mk (trimL s.toList)

/-- JS String.prototype.toUpperCase (on the ASCII verbs the source feeds it). -/
def toUpperString (s : String) : String :=
  String.mk (s.toList.map Char.toUpper)

/-- JS String.prototype.replace with a string pattern: only the first
occurrence is replaced. -/
def replaceFirstL (pat repl : List Char) : List Char → List Char
  | [] => []
  | c :: cs =>
    if pat.isPrefixOf (c :: cs) then repl ++ cs.drop (pat.length - 1)
    else c :: replaceFirstL pat repl cs

def replaceFirst (s pat repl : String) : String :=
  if pat.toList = [] then String.mk (repl.toList ++ s.toList)
  else String.mk (replaceFirstL pat.toList repl.toList s.toList)

/-- JS String.prototype.split with a non-empty string separator, fuelled by
the input length (each step consumes at least one character). -/
def splitOnFuel (sep : List Char) : Nat → List Char → List Char → List (List Char)
  | _, [], acc => [acc.reverse]
  | 0, l, acc => [acc.reverse ++ l]
  | fuel + 1, c :: cs, acc =>
    if sep.isPrefixOf (c :: cs) then
      acc.reverse :: splitOnFuel sep fuel (cs.drop (sep.length - 1)) []
    else splitOnFuel sep fuel cs (c :: acc)

def splitOnL (sep l : List Char) : List (List Char) :=
  if sep = [] then [l] else splitOnFuel sep l.length l []

def splitOnString (s sep : String) : List String :=
  (splitOnL sep.toList s.toList).map String.mk

/-- Code-unit lexicographic comparison (the default JS sort order). -/
def ltCharList : List Char → List Char → Bool
  | [], [] => false
  | [], _ :: _ => true
  | _ :: _, [] => false
  | a :: as, b :: bs =>
    if a.toNat < b.toNat then true
    else if b.toNat < a.toNat then false
    else ltCharList as bs

def stringLt (a b : String) : Bool :=
  ltCharList a.toList b.toList

/-- JS String.prototype.endsWith. -/
def endsWithString (s pat : String) : Bool :=
  pat.toList.isSuffixOf s.toList

/-! ## Schema synthesizer: model fields

Embeds the field pipeline of parseModelFile and its helpers
(castToType, extractTableName) together with the migration pass
(parseMigrationFile, handleSpecialMigrationMethods, analyzeMigrations,
migrationTypeToType).  A ModelField mirrors the ModelField record of the
source: name, semantic type, nullability and optional default (the comment
field of the source is never populated by any extractor and is omitted). -/

structure ModelField where
  name : String
  type : String
  nullable : Bool
  defaultVal : Option String
deriving Repr, DecidableEq

/-- Lookup used throughout the source: the first field whose name matches
(`model.fields.find(f => f.name === n)`). -/
def findField (fields : List ModelField) (n : String) : Option ModelField :=
  fields.find? (fun f => f.name == n)

/-- The cast-name to semantic-type table of castToType; unknown casts fall
back to string. -/
def castToType (cast : String) : String :=
  if cast = "integer" then "integer"
  else if cast = "int" then "integer"
  else if cast = "real" then "float"
  else if cast = "float" then "float"
  else if cast = "double" then "float"
  else if cast = "decimal" then "decimal"
  else if cast = "string" then "string"
  else if cast = "boolean" then "boolean"
  else if cast = "bool" then "boolean"
  else if cast = "object" then "object"
  else if cast = "array" then "array"
  else if cast = "collection" then "collection"
  else if cast = "date" then "date"
  else if cast = "datetime" then "datetime"
  else if cast = "timestamp" then "timestamp"
  else "string"

/-- One fillable entry: pushed as type string, non-nullable, when its trimmed
text is non-empty (`if (field && field.trim())`). -/
def addFillableField (fields : List ModelField) (f : String) : List ModelField :=
  if trimString f ≠ "" then fields ++ [⟨trimString f, "string", false, none⟩] else fields

/-- One hidden entry: added only when no field of that name exists yet. -/
def addHiddenField (fields : List ModelField) (f : String) : List ModelField :=
  if trimString f ≠ "" ∧ ¬ (fields.any (fun g => g.name == trimString f)) then
    fields ++ [⟨trimString f, "string", false, none⟩]
  else fields

/-- One casts entry (field name, cast name): refines the type of the first
existing field of that name, or pushes a new field with the cast type;
skipped when either string is empty (`if (field && cast)`). -/
def applyCastInner (n c : String) : List ModelField → List ModelField
  | [] => [⟨n, castToType c, false, none⟩]
  | f :: fs =>
    if f.name == n then { f with type := castToType c } :: fs
    else f :: applyCastInner n c fs

def applyCast (fields : List ModelField) (e : String × String) : List ModelField :=
  if e.1 ≠ "" ∧ e.2 ≠ "" then applyCastInner e.1 e.2 fields else fields

/-- Merging one migration-derived column into the model field list: the
first existing field of that name gets the migration's type, nullability and
default; otherwise the column is appended as a new field. -/
def mergeMigrationField : List ModelField → ModelField → List ModelField
  | [], mf => [mf]
  | f :: fs, mf =>
    if f.name == mf.name then
      { f with type := mf.type, nullable := mf.nullable, defaultVal := mf.defaultVal } :: fs
    else f :: mergeMigrationField fs mf

/-- The three implicit fields parseModelFile guarantees at the end. -/
def defaultFields : List (String × String) :=
  [("id", "integer"), ("created_at", "datetime"), ("updated_at", "datetime")]

def addDefaultField (fields : List ModelField) (nt : String × String) : List ModelField :=
  if fields.any (fun g => g.name == nt.1) then fields
  else fields ++ [⟨nt.1, nt.2, false, none⟩]

/-- The field list of parseModelFile before the implicit-fields step:
fillable entries, then hidden entries, then casts refinement, then the
migration merge for the model's table. -/
def parseModelFieldsCore (fillable hidden : List String) (casts : List (String × String))
    (migFields : List ModelField) : List ModelField :=
  let f1 := fillable.foldl addFillableField []
  let f2 := hidden.foldl addHiddenField f1
  let f3 := casts.foldl applyCast f2
  migFields.foldl mergeMigrationField f3

/-- The full effective field list of parseModelFile. -/
def parseModelFields (fillable hidden : List String) (casts : List (String × String))
    (migFields : List ModelField) : List ModelField :=
  defaultFields.foldl addDefaultField (parseModelFieldsCore fillable hidden casts migFields)

/-! ## Schema synthesizer: migrations

parseMigrationFile matches column declarations with two patterns: regular
columns `table-><type>('<name>'[, len])<modifiers>;` and zero-argument
convenience calls `table-><method>()<modifiers>;`.  The embedding consumes
the matched fragments: a regular column is (type, name, modifier chain) and
a convenience call is its method name.  The modifier chain is embedded
post-lexing as the list of modifier calls appearing in it, in order: the
source's substring test `modifiers.includes('nullable()')` becomes
membership of the nullable modifier, and its first-match default(...) regex
becomes the first default modifier's value. -/

inductive ColumnModifier where
  | nullable
  | withDefault (value : String)
  | otherCall (text : String)
deriving Repr, DecidableEq

def modsNullable (mods : List ColumnModifier) : Bool :=
  mods.any fun m => match m with
    | .nullable => true
    | _ => false

def modsDefault (mods : List ColumnModifier) : Option String :=
  mods.findSome? fun m => match m with
    | .withDefault v => some v
    | _ => none

/-- The migration-column-type to semantic-type table of migrationTypeToType;
unknown column types fall back to string. -/
def migrationTypeToType (t : String) : String :=
  if t = "id" then "integer"
  else if t = "bigIncrements" then "integer"
  else if t = "increments" then "integer"
  else if t = "integer" then "integer"
  else if t = "bigInteger" then "integer"
  else if t = "smallInteger" then "integer"
  else if t = "tinyInteger" then "integer"
  else if t = "unsignedInteger" then "integer"
  else if t = "unsignedBigInteger" then "integer"
  else if t = "string" then "string"
  else if t = "text" then "string"
  else if t = "mediumText" then "string"
  else if t = "longText" then "string"
  else if t = "char" then "string"
  else if t = "boolean" then "boolean"
  else if t = "date" then "date"
  else if t = "dateTime" then "datetime"
  else if t = "time" then "time"
  else if t = "timestamp" then "timestamp"
  else if t = "timestamps" then "timestamp"
  else if t = "decimal" then "decimal"
  else if t = "double" then "float"
  else if t = "float" then "float"
  else if t = "json" then "json"
  else if t = "jsonb" then "json"
  else if t = "binary" then "binary"
  else if t = "enum" then "string"
  else if t = "uuid" then "string"
  else "string"

/-- The ModelField a matched regular column statement synthesizes. -/
def columnToField (colType colName : String) (mods : List ColumnModifier) : ModelField :=
  ⟨colName, migrationTypeToType colType, modsNullable mods, modsDefault mods⟩

/-- Recording one regular column in a table's field list: a column of the
same name replaces the existing entry in place (`fields[existingIndex] =
field`), otherwise the column is appended. -/
def upsertColumn : List ModelField → ModelField → List ModelField
  | [], c => [c]
  | f :: fs, c =>
    if f.name == c.name then c :: fs
    else f :: upsertColumn fs c

/-- handleSpecialMigrationMethods: timestamps, softDeletes and rememberToken
expand into fixed columns, each added only when absent. -/
def addFieldIfAbsent (fields : List ModelField) (f : ModelField) : List ModelField :=
  if fields.any (fun g => g.name == f.name) then fields else fields ++ [f]

def handleSpecialMigrationMethods (method : String) (fields : List ModelField) :
    List ModelField :=
  if method = "timestamps" then
    addFieldIfAbsent (addFieldIfAbsent fields ⟨"created_at", "timestamp", true, none⟩)
      ⟨"updated_at", "timestamp", true, none⟩
  else if method = "softDeletes" then
    addFieldIfAbsent fields ⟨"deleted_at", "timestamp", true, none⟩
  else if method = "rememberToken" then
    addFieldIfAbsent fields ⟨"remember_token", "string", true, none⟩
  else fields

/-- One migration file after regex matching: its filename, the table named by
the first Schema call (none when the file names no table and is skipped),
the regular column matches in text order, and the zero-argument convenience
calls in text order (the source iterates the first pattern over the whole
file before the second). -/
structure MigrationFileData where
  filename : String
  table : Option String
  cols : List (String × String × List ColumnModifier)
  specials : List String
deriving Repr, DecidableEq

/-- The migrations store: table name to synthesized field list (a Map in the
source, embedded as an association list in insertion order). -/
def getTable (migs : List (String × List ModelField)) (t : String) :
    Option (List ModelField) :=
  (migs.find? (fun p => p.1 == t)).map (fun p => p.2)

def setTable : List (String × List ModelField) → String → List ModelField →
    List (String × List ModelField)
  | [], t, fs => [(t, fs)]
  | p :: ps, t, fs =>
    if p.1 == t then (p.1, fs) :: ps
    else p :: setTable ps t fs

/-- parseMigrationFile over one (already matched) migration file. -/
def parseMigrationFile (migs : List (String × List ModelField))
    (file : MigrationFileData) : List (String × List ModelField) :=
  match file.table with
  | none => migs
  | some t =>
    let fields := (getTable migs t).getD []
    let f1 := file.cols.foldl
      (fun fs c => upsertColumn fs (columnToField c.1 c.2.1 c.2.2)) fields
    let f2 := file.specials.foldl
      (fun fs m => handleSpecialMigrationMethods m fs) f1
    setTable migs t f2

/-- Lexical filename order of the migration scan (`readdirSync(...).sort()`),
embedded as a stable insertion sort on the filename. -/
def insertByFilename (x : MigrationFileData) :
    List MigrationFileData → List MigrationFileData
  | [] => [x]
  | y :: ys =>
    if stringLt x.filename y.filename then x :: y :: ys
    else y :: insertByFilename x ys

def sortByFilename (files : List MigrationFileData) : List MigrationFileData :=
  files.foldr insertByFilename []

/-- analyzeMigrations: the store is cleared, the files are processed in
lexical filename order, each folded into the store by parseMigrationFile. -/
def analyzeMigrations (files : List MigrationFileData) :
    List (String × List ModelField) :=
  (sortByFilename files).foldl parseMigrationFile []

/-! ## Table-name derivation

extractTableName (and the identical modelNameToTableName of the validation
completion provider) without an explicit table property:
`modelName.replace(/([A-Z])/g, '_$1').toLowerCase().substring(1) + 's'`.
The per-character JS operations are embedded on the character list of the
name. -/

def insertUnderscoresL (l : List Char) : List Char :=
  l.flatMap fun c => if c.isUpper then ['_', c] else [c]

/-- The derived table name of the source: underscore before each uppercase
letter, lowercase everything, drop the FIRST CHARACTER, append s. -/
def extractTableNameDerived (modelName : String) : String :=
  String.mk (((insertUnderscoresL modelName.toList).map Char.toLower).drop 1) ++ "s"

/-- Modelled from the spec claim for comparison: underscore before each
uppercase letter, lowercase everything, remove the LEADING UNDERSCORE when
one is present, append s. -/
def tableNameSpec (modelName : String) : String :=
  let t := (insertUnderscoresL modelName.toList).map Char.toLower
  String.mk (match t with
    | '_' :: r => r
    | r => r) ++ "s"

/-! ## Route extractor

parseRouteLine of the enhanced route provider tests each line against four
independent patterns (quoted controller@method, array [Controller::class,
method], resource/apiResource, closure) and adds one route per match.  The
embedding consumes the per-pattern match results of a line; a line of one
declaration shape matches exactly its own pattern, since the other verb
alternations cannot match it.  Source-location fields (filePath, line,
column) and the trailing name(...) attachment pass, which only rewrites the
name of an already-added route, are not needed by any claim and omitted. -/

structure RouteInfo where
  method : List String
  uri : String
  name : Option String
  action : Option String
  controller : Option String
  controllerMethod : Option String
  middleware : List String
deriving Repr, DecidableEq

/-- The merged URI of every route pattern:
`groupPrefix ? (groupPrefix + "/" + uri).replace("//", "/") : uri`. -/
def mergeUri (pfx uri : String) : String :=
  if pfx ≠ "" then replaceFirst (pfx ++ "/" ++ uri) "//" "/" else uri

/-- Modelled from the spec claim for comparison: every run of duplicate path
separators collapsed to a single one. -/
def collapseDupSeparators (s : String) : String :=
  String.mk (s.toList.foldr
    (fun c acc => if c = '/' ∧ acc.head? = some '/' then acc else c :: acc) [])

/-- `controller.split('\x5c\x5c').pop() || controller` of the source. -/
def lastSegment (s : String) : String :=
  let seg := (splitOnString s "\\").getLastD s
  if seg = "" then s else seg

/-- The match results of one route-declaration line, one slot per pattern of
parseRouteLine, plus the inline middleware matched on the line. -/
structure RouteLineMatches where
  stdMatch : Option (String × String × String × String)
  arrMatch : Option (String × String × String × String)
  resMatch : Option (String × String × String)
  closureMatch : Option (String × String)
  inlineMiddleware : List String
deriving Repr, DecidableEq

/-- The fixed method list of resource and apiResource declarations (both
branches of the source ternary are the same list). -/
def resourceMethods (resourceType : String) : List String :=
  if resourceType = "apiResource" then ["GET", "POST", "PUT", "PATCH", "DELETE"]
  else ["GET", "POST", "PUT", "PATCH", "DELETE"]

def parseRouteLine (m : RouteLineMatches) (groupMiddleware : List String)
    (groupPfx : String) : List RouteInfo :=
  let mw := groupMiddleware ++ m.inlineMiddleware
  (match m.stdMatch with
   | some (v, uri, c, cm) =>
     [{ method := [toUpperString v], uri := mergeUri groupPfx uri, name := none,
        action := some (c ++ "@" ++ cm), controller := some c,
        controllerMethod := some cm, middleware := mw }]
   | none => []) ++
  (match m.arrMatch with
   | some (v, uri, c, cm) =>
     [{ method := [toUpperString v], uri := mergeUri groupPfx uri, name := none,
        action := some (c ++ "@" ++ cm), controller := some (lastSegment c),
        controllerMethod := some cm, middleware := mw }]
   | none => []) ++
  (match m.resMatch with
   | some (rt, uri, c) =>
     [{ method := resourceMethods rt,
        uri := mergeUri groupPfx uri ++ "/\x7bid?\x7d", name := none,
        action := some (c ++ " (" ++ rt ++ ")"), controller := some (lastSegment c),
        controllerMethod := some "resource", middleware := mw }]
   | none => []) ++
  (match m.closureMatch with
   | some (v, uri) =>
     [{ method := [toUpperString v], uri := mergeUri groupPfx uri, name := none,
        action := some "Closure", controller := none,
        controllerMethod := none, middleware := mw }]
   | none => [])

/-- One line of a route file as parseRouteFile classifies it: a line opening
a Route::group (with the middleware array and prefix string parseRouteGroup
matches on it), a line that is exactly the closing marker, or an ordinary
line with its pattern matches. -/
inductive RouteFileLine where
  | groupOpen (middleware : List String) (pfxAttr : Option String)
  | groupClose
  | routeLine (m : RouteLineMatches)
deriving Repr, DecidableEq

structure GroupCtx where
  middleware : List String
  pfx : String
  level : Nat
deriving Repr, DecidableEq

/-- The per-line state transition of parseRouteFile.  Entering a group
increments the depth and pushes the matched middleware into the shared
middleware array; the matched PREFIX, however, is only assigned to a
by-value string parameter inside parseRouteGroup, so the caller's
currentPrefix is left as it was and the matched attribute is discarded.
The closing marker at depth 1 resets middleware and prefix; any line's
route matches are parsed under the current context. -/
def stepRouteLine (ctx : GroupCtx) : RouteFileLine → GroupCtx × List RouteInfo
  | .groupOpen mws _ =>
    ({ middleware := ctx.middleware ++ mws, pfx := ctx.pfx,
       level := ctx.level + 1 }, [])
  | .groupClose =>
    if ctx.level > 0 then
      if ctx.level - 1 = 0 then ({ middleware := [], pfx := "", level := 0 }, [])
      else ({ ctx with level := ctx.level - 1 }, [])
    else (ctx, [])
  | .routeLine m => (ctx, parseRouteLine m ctx.middleware ctx.pfx)

def extractRoutesGo (ctx : GroupCtx) : List RouteFileLine → List RouteInfo
  | [] => []
  | ln :: rest =>
    (stepRouteLine ctx ln).2 ++ extractRoutesGo (stepRouteLine ctx ln).1 rest

/-- parseRouteFile over one file: the lines are folded through the group
context, which starts with no middleware, an empty prefix and depth 0. -/
def extractRoutes (lines : List RouteFileLine) : List RouteInfo :=
  extractRoutesGo ⟨[], "", 0⟩ lines

/-- The candidate keys buildControllerRouteMap indexes a bound route under;
the Controller suffix is stripped with the single-occurrence JS replace. -/
def controllerKeys (c m : String) : List String :=
  let base := [c ++ "@" ++ m]
  let base := if ¬ (endsWithString c "Controller") then base ++ [c ++ "Controller@" ++ m] else base
  if endsWithString c "Controller" then
    let short := replaceFirst c "Controller" ""
    base ++ [short ++ "@" ++ m, short ++ "Controller@" ++ m]
  else base

def addToBucket : List (String × List RouteInfo) → String → RouteInfo →
    List (String × List RouteInfo)
  | [], k, r => [(k, [r])]
  | p :: ps, k, r =>
    if p.1 == k then (p.1, p.2 ++ [r]) :: ps else p :: addToBucket ps k r

def buildControllerRouteMap (rbf : List (String × List RouteInfo)) :
    List (String × List RouteInfo) :=
  rbf.foldl
    (fun acc fp =>
      fp.2.foldl
        (fun acc r =>
          match r.controller, r.controllerMethod with
          | some c, some cm =>
            if c ≠ "" ∧ cm ≠ "" then
              (controllerKeys c cm).foldl (fun acc k => addToBucket acc k r) acc
            else acc
          | _, _ => acc)
        acc)
    []

/-- The per-domain route store (routes by file, controller index). -/
structure RouteStore where
  routesByFile : List (String × List RouteInfo)
  controllerRoutes : List (String × List RouteInfo)
deriving Repr, DecidableEq

/-- parseAllRoutes: both maps are cleared, every file is re-parsed, and the
controller index is rebuilt from the fresh routes; the previous store
contributes nothing past the clear. -/
def parseAllRoutes (files : List (String × List RouteFileLine)) (_s : RouteStore) :
    RouteStore :=
  let rbf := files.foldl (fun acc f => acc ++ [(f.1, extractRoutes f.2)]) []
  { routesByFile := rbf, controllerRoutes := buildControllerRouteMap rbf }

/-! ## Translation catalog and usage scan -/

structure TranslationEntry where
  key : String
  file : String
  locale : String
  value : String
  line : Option Nat
  isUsed : Bool
deriving Repr, DecidableEq

structure TranslationUsage where
  key : String
  file : String
  line : Nat
  column : Nat
  method : String
deriving Repr, DecidableEq

/-- addTranslation: the Map bucket of the key gets the new entry appended
(created at the end of the map when absent); every entry starts unused. -/
def pushEntry : List (String × List TranslationEntry) → TranslationEntry →
    List (String × List TranslationEntry)
  | [], e => [(e.key, [e])]
  | b :: bs, e =>
    if b.1 == e.key then (b.1, b.2 ++ [e]) :: bs else b :: pushEntry bs e

def addTranslation (tr : List (String × List TranslationEntry))
    (key file locale value : String) (line : Option Nat) :
    List (String × List TranslationEntry) :=
  pushEntry tr ⟨key, file, locale, value, line, false⟩

/-- markTranslationAsUsed: every entry of the key's bucket is marked used
(a Map holds one bucket per key, so marking each equal-keyed bucket is the
Map lookup of the source). -/
def markTranslationAsUsed (tr : List (String × List TranslationEntry))
    (key : String) : List (String × List TranslationEntry) :=
  tr.map fun b =>
    if b.1 == key then (b.1, b.2.map fun t => { t with isUsed := true }) else b

/-- getUnusedTranslations: the entries whose isUsed flag is still false, in
catalog order. -/
def getUnusedTranslations (tr : List (String × List TranslationEntry)) :
    List TranslationEntry :=
  tr.flatMap fun b => b.2.filter fun t => !t.isUsed

/-- One parsed catalog leaf (dotted key, source file, locale, value, line). -/
structure TranslationFileEntry where
  key : String
  file : String
  locale : String
  value : String
  line : Option Nat
deriving Repr, DecidableEq

structure TranslationStore where
  translations : List (String × List TranslationEntry)
  usages : List TranslationUsage
deriving Repr, DecidableEq

/-- loadTranslations adds every successfully parsed catalog leaf to the
current store (it does not clear by itself). -/
def loadTranslations (s : TranslationStore) (catalog : List TranslationFileEntry) :
    TranslationStore :=
  { s with
    translations := catalog.foldl
      (fun tr e => addTranslation tr e.key e.file e.locale e.value e.line)
      s.translations }

/-- One usage match: the usage is recorded and the key's catalog entries are
marked used. -/
def recordUsage (s : TranslationStore) (u : TranslationUsage) : TranslationStore :=
  { translations := markTranslationAsUsed s.translations u.key,
    usages := s.usages ++ [u] }

def scanForUsages (s : TranslationStore) (found : List TranslationUsage) :
    TranslationStore :=
  found.foldl recordUsage s

/-- reloadTranslations: the store is cleared, then rebuilt by a fresh load
and a fresh usage scan; the previous store contributes nothing. -/
def reloadTranslations (_s : TranslationStore) (catalog : List TranslationFileEntry)
    (found : List TranslationUsage) : TranslationStore :=
  scanForUsages (loadTranslations ⟨[], []⟩ catalog) found

/-! ## Validation rule registry

The static rule catalog (name, category, parameter specs) and the two
services the claims exercise: compatibility filtering (isRuleApplicable over
the fixed mutual-exclusion table) and the diagnostics of validateRule with
the table suggestions of createTableNotFoundActions.  The human-readable
description, example and documentation-URL strings of the catalog play no
role in any checked logic and are omitted. -/

def mutuallyExclusive (r : String) : List String :=
  if r = "required" then ["nullable", "sometimes"]
  else if r = "nullable" then ["required"]
  else if r = "string" then ["numeric", "integer", "boolean", "array", "file", "image"]
  else if r = "numeric" then ["string", "boolean", "array", "file", "image"]
  else if r = "integer" then ["string", "boolean", "array", "file", "image", "decimal"]
  else if r = "boolean" then ["string", "numeric", "integer", "array", "file", "image"]
  else if r = "array" then ["string", "numeric", "integer", "boolean", "file", "image"]
  else if r = "file" then ["string", "numeric", "integer", "boolean", "array"]
  else if r = "image" then ["string", "numeric", "integer", "boolean", "array"]
  else []

/-- isRuleApplicable: a candidate conflicts when its exclusion list hits an
applied rule, or when an applied rule's exclusion list names it. -/
def isRuleApplicable (ruleName : String) (currentRules : List String) : Bool :=
  if (mutuallyExclusive ruleName).any (fun c => currentRules.contains c) then false
  else if currentRules.any (fun er => (mutuallyExclusive er).contains ruleName) then false
  else true

structure ValidationParameter where
  name : String
  type : String
  required : Bool
deriving Repr, DecidableEq

structure ValidationRuleDef where
  name : String
  category : String
  parameters : Option (List ValidationParameter)
deriving Repr, DecidableEq

def validationRules : List ValidationRuleDef :=
  [⟨"required", "Basic", none⟩,
   ⟨"nullable", "Basic", none⟩,
   ⟨"string", "String", none⟩,
   ⟨"integer", "Numeric", none⟩,
   ⟨"numeric", "Numeric", none⟩,
   ⟨"boolean", "Boolean", none⟩,
   ⟨"email", "Format", none⟩,
   ⟨"min", "Size", some [⟨"value", "integer", true⟩]⟩,
   ⟨"max", "Size", some [⟨"value", "integer", true⟩]⟩,
   ⟨"confirmed", "Confirmation", none⟩,
   ⟨"unique", "Database", some [⟨"table", "string", true⟩, ⟨"column", "string", false⟩]⟩,
   ⟨"exists", "Database", some [⟨"table", "string", true⟩, ⟨"column", "string", false⟩]⟩,
   ⟨"in", "Options", some [⟨"values", "string", true⟩]⟩,
   ⟨"regex", "Pattern", some [⟨"pattern", "string", true⟩]⟩,
   ⟨"date", "Date", none⟩,
   ⟨"file", "File", none⟩,
   ⟨"image", "File", none⟩]

def getValidationRule (n : String) : Option ValidationRuleDef :=
  validationRules.find? (fun r => r.name == n)

/-- The candidates provideValidationRuleCompletions offers: catalog rules
not already applied and compatible with every applied rule. -/
def candidateRuleNames (currentRules : List String) : List String :=
  (validationRules.filter fun r =>
    !currentRules.contains r.name && isRuleApplicable r.name currentRules).map
    (fun r => r.name)

inductive Severity where
  | error
  | warning
deriving Repr, DecidableEq

structure ValidationIssue where
  message : String
  severity : Severity
  code : String
deriving Repr, DecidableEq

/-- validateRule of the diagnostics provider: the rule text is split on
colons, the head is looked up in the catalog, required parameters are
counted, and an exists/unique table argument missing from the
migration-derived schema yields a warning diagnostic. -/
def validateRule (tables : List (String × List String)) (rule : String) :
    List ValidationIssue :=
  let parts := splitOnString rule ":"
  let ruleName := parts.headD ""
  let params := parts.tail
  match getValidationRule ruleName with
  | none => [⟨"Unknown validation rule: " ++ ruleName, .error, "unknown-rule"⟩]
  | some rd =>
    let paramIssues :=
      match rd.parameters with
      | some ps =>
        let expected := (ps.filter (fun p => p.required)).length
        let provided :=
          if params.length > 0 then (splitOnString (params.headD "") ",").length else 0
        if provided < expected then
          [⟨"Rule '" ++ ruleName ++ "' requires " ++ toString expected ++
              " parameter(s), got " ++ toString provided, .error, "missing-parameters"⟩]
        else []
      | none => []
    let tableIssues :=
      if (ruleName = "exists" ∨ ruleName = "unique") ∧ params.length > 0 then
        let tableName := (splitOnString (params.headD "") ",").headD ""
        if tables.any (fun p => p.1 == tableName) then []
        else [⟨"Table '" ++ tableName ++ "' not found in database schema",
               .warning, "table-not-found"⟩]
      else []
    paramIssues ++ tableIssues

/-- createTableNotFoundActions: the offered replacement tables are the first
five keys of the migration-derived schema map. -/
def createTableNotFoundSuggestions (tables : List (String × List String)) :
    List String :=
  (tables.map (fun p => p.1)).take 5

/-! ## Theorems -/

/-- Claim C2: a resource or apiResource declaration line with a
Controller::class argument yields exactly one route, whose method list is
exactly GET, POST, PUT, PATCH, DELETE and whose URI is the prefix-merged
resource URI with the suffix /\x7bid?\x7d appended. -/
theorem C2_resource_route_expansion (rt u c : String) (mw inl : List String)
    (p : String) :
    (parseRouteLine ⟨none, none, some (rt, u, c), none, inl⟩ mw p).length = 1 ∧
    (parseRouteLine ⟨none, none, some (rt, u, c), none, inl⟩ mw p).map
      (fun r => r.method) = [["GET", "POST", "PUT", "PATCH", "DELETE"]] ∧
    (parseRouteLine ⟨none, none, some (rt, u, c), none, inl⟩ mw p).map
      (fun r => r.uri) = [mergeUri p u ++ "/\x7bid?\x7d"] := by
  refine ⟨rfl, ?_, rfl⟩
  simp only [parseRouteLine, resourceMethods]
  split <;> rfl

/-- Claim C3, counterexample: a route declared inside a group carrying the
URI prefix api/ comes out with its declared URI /users unchanged — the
matched prefix is assigned only to a by-value parameter of parseRouteGroup
and never reaches the route — while the claimed merge of the prefix with
duplicate separators collapsed would give api/users. -/
theorem C3_group_prefix_counterexample :
    (extractRoutes [RouteFileLine.groupOpen [] (some "api/"),
        RouteFileLine.routeLine ⟨none, none, none, some ("get", "/users"), []⟩,
        RouteFileLine.groupClose]).map (fun r => r.uri) = ["/users"] ∧
    ("/users" : String) ≠ collapseDupSeparators ("api/" ++ "/" ++ "/users") := by
  decide

/-- Claim C3 as amended: the group context's prefix stays empty across any
line stream (the matched prefix attribute is discarded by the by-value
assignment in parseRouteGroup), every extracted route is therefore produced
by parseRouteLine under an empty prefix, and under an empty prefix each of
the four declaration shapes keeps its declared URI unchanged, with resource
declarations appending the /\x7bid?\x7d suffix; so inside or outside any
group the extracted URI is the declared one unchanged. -/
theorem C3_group_prefix_never_applied :
    (∀ (ctx : GroupCtx) (lines : List RouteFileLine), ctx.pfx = "" →
      ∀ r ∈ extractRoutesGo ctx lines,
        ∃ m mw, r ∈ parseRouteLine m mw "") ∧
    (∀ (mw inl : List String) (u v c cm rt : String),
      ((parseRouteLine ⟨some (v, u, c, cm), none, none, none, inl⟩ mw "").map
        (fun r => r.uri) = [u]) ∧
      ((parseRouteLine ⟨none, some (v, u, c, cm), none, none, inl⟩ mw "").map
        (fun r => r.uri) = [u]) ∧
      ((parseRouteLine ⟨none, none, some (rt, u, c), none, inl⟩ mw "").map
        (fun r => r.uri) = [u ++ "/\x7bid?\x7d"]) ∧
      ((parseRouteLine ⟨none, none, none, some (v, u), inl⟩ mw "").map
        (fun r => r.uri) = [u])) := by
  constructor
  · intro ctx lines
    revert ctx
    induction lines with
    | nil =>
      intro ctx _ r hr
      simp [extractRoutesGo] at hr
    | cons ln rest ih =>
      intro ctx hpfx r hr
      cases ln with
      | groupOpen mws pa =>
        simp only [extractRoutesGo, stepRouteLine, List.nil_append] at hr
        exact ih ⟨ctx.middleware ++ mws, ctx.pfx, ctx.level + 1⟩ hpfx r hr
      | groupClose =>
        simp only [extractRoutesGo, stepRouteLine] at hr
        by_cases h1 : ctx.level > 0
        · by_cases h2 : ctx.level - 1 = 0
          · rw [if_pos h1, if_pos h2] at hr
            simp only [List.nil_append] at hr
            exact ih _ rfl r hr
          · rw [if_pos h1, if_neg h2] at hr
            simp only [List.nil_append] at hr
            exact ih ⟨ctx.middleware, ctx.pfx, ctx.level - 1⟩ hpfx r hr
        · rw [if_neg h1] at hr
          simp only [List.nil_append] at hr
          exact ih _ hpfx r hr
      | routeLine m =>
        simp only [extractRoutesGo, stepRouteLine] at hr
        rcases List.mem_append.mp hr with hl | hrr
        · rw [hpfx] at hl
          exact ⟨m, ctx.middleware, hl⟩
        · exact ih _ hpfx r hrr
  · intro mw inl u v c cm rt
    exact ⟨rfl, rfl, rfl, rfl⟩

/-- Claim C8: a full re-extraction clears the domain store and rebuilds it
from the input files alone, so running it twice over unchanged inputs gives
the same route store and the same translation store as running it once. -/
theorem C8_reextraction_idempotent (files : List (String × List RouteFileLine))
    (s : RouteStore) (catalog : List TranslationFileEntry)
    (found : List TranslationUsage) (ts : TranslationStore) :
    parseAllRoutes files (parseAllRoutes files s) = parseAllRoutes files s ∧
    reloadTranslations (reloadTranslations ts catalog found) catalog found
      = reloadTranslations ts catalog found :=
  ⟨rfl, rfl⟩

/-- Claim C10, counterexample: for the model class name post the source
derives the table name osts (substring(1) removes the first character even
when no underscore was inserted), while the snake-case description of the
claim gives posts. -/
theorem C10_snake_case_counterexample :
    extractTableNameDerived "post" ≠ tableNameSpec "post" := by decide

/-- Claim C10 as amended: the derived table name drops the FIRST CHARACTER
of the underscore-expanded, lowercased class name and appends s; this
coincides with the claimed snake-case conversion exactly when the class name
begins with an uppercase letter, as in BlogPost to blog_posts. -/
theorem C10_table_name_amended (c : Char) (cs : List Char) (h : c.isUpper = true) :
    extractTableNameDerived (String.mk (c :: cs)) = tableNameSpec (String.mk (c :: cs)) ∧
    extractTableNameDerived "BlogPost" = "blog_posts" := by
  refine ⟨?_, by decide⟩
  simp [extractTableNameDerived, tableNameSpec, insertUnderscoresL, h]

theorem C10_table_name_amended_witness :
    extractTableNameDerived (String.mk ('B' :: ['l', 'o', 'g'])) =
      tableNameSpec (String.mk ('B' :: ['l', 'o', 'g'])) :=
  (C10_table_name_amended 'B' ['l', 'o', 'g'] (by decide)).1

/-- Claim C4: mutual-exclusion filtering is symmetric.  When the table lists
b among the conflicts of a in either direction, b is not applicable (and not
offered as a candidate) once a is applied, and a is not applicable (and not
offered) once b is applied. -/
theorem C4_exclusion_symmetric (a b : String) (cur : List String)
    (hconf : b ∈ mutuallyExclusive a ∨ a ∈ mutuallyExclusive b) :
    (a ∈ cur → isRuleApplicable b cur = false ∧ b ∉ candidateRuleNames cur) ∧
    (b ∈ cur → isRuleApplicable a cur = false ∧ a ∉ candidateRuleNames cur) := by
  have notOffered : ∀ (r : String) (l : List String),
      isRuleApplicable r l = false → r ∉ candidateRuleNames l := by
    intro r l hr hmem
    simp only [candidateRuleNames, List.mem_map, List.mem_filter] at hmem
    obtain ⟨rd, ⟨_, hpass⟩, hname⟩ := hmem
    rw [Bool.and_eq_true] at hpass
    rw [hname] at hpass
    rw [hr] at hpass
    exact Bool.false_ne_true hpass.2
  have notApp : ∀ (x y : String),
      (y ∈ mutuallyExclusive x ∨ x ∈ mutuallyExclusive y) → x ∈ cur →
      isRuleApplicable y cur = false := by
    intro x y hc hx
    unfold isRuleApplicable
    rcases hc with hc | hc
    · split
      · rfl
      · split
        · rfl
        · rename_i h2
          exfalso
          apply h2
          exact List.any_eq_true.mpr ⟨x, hx, by simpa using hc⟩
    · have h1 : (mutuallyExclusive y).any (fun c => cur.contains c) = true :=
        List.any_eq_true.mpr ⟨x, hc, by simpa using hx⟩
      rw [h1]
      rfl
  constructor
  · intro ha
    have h := notApp a b hconf ha
    exact ⟨h, notOffered b cur h⟩
  · intro hb
    have h := notApp b a (Or.symm hconf) hb
    exact ⟨h, notOffered a cur h⟩

theorem C4_exclusion_symmetric_witness :
    isRuleApplicable "nullable" ["required"] = false ∧
    isRuleApplicable "required" ["nullable"] = false :=
  ⟨((C4_exclusion_symmetric "required" "nullable" ["required"] (by decide)).1
      (by decide)).1,
   ((C4_exclusion_symmetric "nullable" "required" ["nullable"] (by decide)).1
      (by decide)).1⟩

/-- Claim C6: marking a found translation key flips isUsed on every catalog
entry of that key's bucket at once (all locales share the bucket) and leaves
every other bucket unchanged; the unused query returns exactly the catalog
entries whose isUsed flag is false. -/
theorem C6_usage_marking_and_unused (tr : List (String × List TranslationEntry))
    (k : String) :
    (∀ b ∈ markTranslationAsUsed tr k, b.1 = k → ∀ e ∈ b.2, e.isUsed = true) ∧
    (∀ b ∈ markTranslationAsUsed tr k, b.1 ≠ k → b ∈ tr) ∧
    (∀ e : TranslationEntry, e ∈ getUnusedTranslations tr ↔
      ∃ b ∈ tr, e ∈ b.2 ∧ e.isUsed = false) := by
  refine ⟨?_, ?_, ?_⟩
  · intro b hb hbk e he
    simp only [markTranslationAsUsed, List.mem_map] at hb
    obtain ⟨b0, _, hb0⟩ := hb
    by_cases h : b0.1 = k
    · rw [if_pos (by simpa using h)] at hb0
      rw [← hb0] at he
      simp only [List.mem_map] at he
      obtain ⟨t, _, ht⟩ := he
      rw [← ht]
    · rw [if_neg (by simpa using h)] at hb0
      rw [← hb0] at hbk
      exact absurd hbk h
  · intro b hb hbk
    simp only [markTranslationAsUsed, List.mem_map] at hb
    obtain ⟨b0, hb0mem, hb0⟩ := hb
    by_cases h : b0.1 = k
    · rw [if_pos (by simpa using h)] at hb0
      rw [← hb0] at hbk
      exact absurd h hbk
    · rw [if_neg (by simpa using h)] at hb0
      rw [← hb0]
      exact hb0mem
  · intro e
    simp [getUnusedTranslations, List.mem_filter]

/-- Claim C7: an exists or unique rule naming a table the migrations do not
define produces a table-not-found warning diagnostic (validateRule returns
issues, it cannot throw), and every replacement table the quick fix offers
is a key of the migration-derived schema; with only users and posts defined
the offered replacements are exactly users and posts. -/
theorem C7_unknown_table_warning (tables : List (String × List String))
    (h : tables.any (fun p => p.1 == "unknown_table") = false) :
    validateRule tables "exists:unknown_table"
      = [⟨"Table 'unknown_table' not found in database schema", .warning,
          "table-not-found"⟩] ∧
    (∀ s ∈ createTableNotFoundSuggestions tables, s ∈ tables.map (fun p => p.1)) ∧
    createTableNotFoundSuggestions [("users", ["id"]), ("posts", ["id"])]
      = ["users", "posts"] := by
  refine ⟨?_, ?_, by decide⟩
  · have e1 : splitOnString "exists:unknown_table" ":" = ["exists", "unknown_table"] := by
      decide
    have e2 : getValidationRule "exists"
        = some ⟨"exists", "Database",
            some [⟨"table", "string", true⟩, ⟨"column", "string", false⟩]⟩ := by decide
    have e3 : splitOnString "unknown_table" "," = ["unknown_table"] := by decide
    simp only [validateRule, e1, e2, e3, List.headD, List.tail, h]
    norm_num
    decide
  · intro s hs
    have := List.take_subset 5 (tables.map (fun p => p.1))
    exact this hs

theorem C7_unknown_table_warning_witness :
    validateRule [("users", ["id"]), ("posts", ["id"])] "exists:unknown_table"
      = [⟨"Table 'unknown_table' not found in database schema", .warning,
          "table-not-found"⟩] :=
  (C7_unknown_table_warning [("users", ["id"]), ("posts", ["id"])] (by decide)).1

/-! ### Supporting lemmas for the field-merge theorems -/

theorem findField_cons (f : ModelField) (fs : List ModelField) (n : String) :
    findField (f :: fs) n = if f.name = n then some f else findField fs n := by
  simp only [findField, List.find?]
  by_cases h : f.name = n
  · rw [if_pos h]
    have hb : (f.name == n) = true := by simpa using h
    rw [hb]
  · rw [if_neg h]
    have hb : (f.name == n) = false := by simpa using h
    rw [hb]

theorem findField_append_of_some (fs gs : List ModelField) (n : String)
    (f : ModelField) (h : findField fs n = some f) :
    findField (fs ++ gs) n = some f := by
  induction fs with
  | nil => simp [findField, List.find?] at h
  | cons x xs ih =>
    rw [findField_cons] at h
    rw [List.cons_append, findField_cons]
    by_cases hx : x.name = n
    · rw [if_pos hx] at h ⊢
      exact h
    · rw [if_neg hx] at h ⊢
      exact ih h

theorem findField_append_single_ne (fs : List ModelField) (g : ModelField)
    (n : String) (h : g.name ≠ n) :
    findField (fs ++ [g]) n = findField fs n := by
  induction fs with
  | nil => simp [findField_cons, findField, h]
  | cons x xs ih =>
    rw [List.cons_append, findField_cons, findField_cons]
    by_cases hx : x.name = n
    · rw [if_pos hx, if_pos hx]
    · rw [if_neg hx, if_neg hx, ih]

theorem findField_append_single_self (fs : List ModelField) (g : ModelField)
    (h : findField fs g.name = none) :
    findField (fs ++ [g]) g.name = some g := by
  induction fs with
  | nil => simp [findField_cons, findField]
  | cons x xs ih =>
    rw [findField_cons] at h
    by_cases hx : x.name = g.name
    · rw [if_pos hx] at h
      cases h
    · rw [if_neg hx] at h
      rw [List.cons_append, findField_cons, if_neg hx]
      exact ih h

theorem findField_eq_none_iff (fs : List ModelField) (n : String) :
    findField fs n = none ↔ fs.any (fun g => g.name == n) = false := by
  induction fs with
  | nil => simp [findField]
  | cons x xs ih =>
    rw [findField_cons]
    by_cases hx : x.name = n
    · simp [hx]
    · simp [hx, ih]

theorem findField_addDefaultField_self (fs : List ModelField) (nt : String × String) :
    findField (addDefaultField fs nt) nt.1
      = some ((findField fs nt.1).getD ⟨nt.1, nt.2, false, none⟩) := by
  unfold addDefaultField
  by_cases h : fs.any (fun g => g.name == nt.1) = true
  · rw [if_pos h]
    rcases ho : findField fs nt.1 with _ | f
    · rw [findField_eq_none_iff] at ho
      rw [ho] at h
      cases h
    · rfl
  · have hfalse : fs.any (fun g => g.name == nt.1) = false := by
      simpa using h
    rw [if_neg (by simp [hfalse])]
    have hn : findField fs nt.1 = none := (findField_eq_none_iff fs nt.1).mpr hfalse
    rw [hn]
    exact findField_append_single_self fs ⟨nt.1, nt.2, false, none⟩ hn

theorem findField_addDefaultField_ne (fs : List ModelField) (nt : String × String)
    (n : String) (h : nt.1 ≠ n) :
    findField (addDefaultField fs nt) n = findField fs n := by
  unfold addDefaultField
  split
  · rfl
  · exact findField_append_single_ne fs ⟨nt.1, nt.2, false, none⟩ n h

theorem findField_defaultsFold_of_some (dfs : List (String × String)) :
    ∀ (fs : List ModelField) (n : String) (f : ModelField), findField fs n = some f →
      findField (dfs.foldl addDefaultField fs) n = some f := by
  induction dfs with
  | nil => intro fs n f h; exact h
  | cons d ds ih =>
    intro fs n f h
    rw [List.foldl_cons]
    apply ih
    unfold addDefaultField
    split
    · exact h
    · exact findField_append_of_some fs _ n f h

theorem findField_mergeMigrationField_self (fs : List ModelField) (mf : ModelField) :
    findField (mergeMigrationField fs mf) mf.name = some mf := by
  induction fs with
  | nil => simp [mergeMigrationField, findField_cons]
  | cons f fs ih =>
    unfold mergeMigrationField
    by_cases h : f.name = mf.name
    · rw [if_pos (by simpa using h), findField_cons]
      rw [if_pos (by simpa using h)]
      cases mf
      simp_all
    · rw [if_neg (by simpa using h), findField_cons, if_neg h]
      exact ih

theorem findField_mergeMigrationField_ne (fs : List ModelField) (mf : ModelField)
    (n : String) (h : mf.name ≠ n) :
    findField (mergeMigrationField fs mf) n = findField fs n := by
  induction fs with
  | nil => simp [mergeMigrationField, findField_cons, findField, h]
  | cons f fs ih =>
    unfold mergeMigrationField
    by_cases hf : f.name = mf.name
    · have hne : f.name ≠ n := by rw [hf]; exact h
      rw [if_pos (by simpa using hf), findField_cons, findField_cons]
      simp only [hne, if_neg, ite_false]
    · rw [if_neg (by simpa using hf), findField_cons, findField_cons, ih]

theorem findField_migsFold_ne (migs : List ModelField) (n : String) :
    ∀ fs : List ModelField, (∀ mf ∈ migs, mf.name ≠ n) →
      findField (migs.foldl mergeMigrationField fs) n = findField fs n := by
  induction migs with
  | nil => intro fs _; rfl
  | cons m ms ih =>
    intro fs h
    rw [List.foldl_cons, ih _ (fun x hx => h x (List.mem_cons_of_mem m hx))]
    exact findField_mergeMigrationField_ne fs m n (h m (List.mem_cons_self m ms))

theorem findField_migsFold_self (migs : List ModelField) :
    ∀ (fs : List ModelField) (mf : ModelField),
      migs.Pairwise (fun a b => a.name ≠ b.name) → mf ∈ migs →
      findField (migs.foldl mergeMigrationField fs) mf.name = some mf := by
  induction migs with
  | nil => intro fs mf _ hmem; cases hmem
  | cons m ms ih =>
    intro fs mf hpw hmem
    rw [List.foldl_cons]
    rcases List.mem_cons.mp hmem with rfl | hmem
    · rw [findField_migsFold_ne ms mf.name _
        (fun x hx => ((List.pairwise_cons.mp hpw).1 x hx).symm)]
      exact findField_mergeMigrationField_self fs mf
    · exact ih _ mf (List.pairwise_cons.mp hpw).2 hmem

theorem findField_applyCastInner_self (n c : String) (fs : List ModelField) :
    ∃ f, findField (applyCastInner n c fs) n = some f ∧ f.type = castToType c := by
  induction fs with
  | nil =>
    refine ⟨⟨n, castToType c, false, none⟩, ?_, rfl⟩
    simp [applyCastInner, findField_cons]
  | cons f fs ih =>
    unfold applyCastInner
    by_cases h : f.name = n
    · refine ⟨{ f with type := castToType c }, ?_, rfl⟩
      rw [if_pos (by simpa using h), findField_cons]
      simp [h]
    · obtain ⟨g, hg, ht⟩ := ih
      refine ⟨g, ?_, ht⟩
      rw [if_neg (by simpa using h), findField_cons, if_neg h]
      exact hg

theorem findField_applyCastInner_ne (n c m : String) (hm : n ≠ m)
    (fs : List ModelField) :
    findField (applyCastInner n c fs) m = findField fs m := by
  induction fs with
  | nil => simp [applyCastInner, findField_cons, findField, hm]
  | cons f fs ih =>
    unfold applyCastInner
    by_cases h : f.name = n
    · have hne : f.name ≠ m := by rw [h]; exact hm
      rw [if_pos (by simpa using h), findField_cons, findField_cons]
      simp only [hne, if_neg, ite_false]
    · rw [if_neg (by simpa using h), findField_cons, findField_cons, ih]

theorem findField_applyCast_ne (fs : List ModelField) (e : String × String)
    (m : String) (hm : e.1 ≠ m) :
    findField (applyCast fs e) m = findField fs m := by
  unfold applyCast
  split
  · exact findField_applyCastInner_ne e.1 e.2 m hm fs
  · rfl

theorem findField_castsFold_ne (cs : List (String × String)) (m : String) :
    ∀ fs : List ModelField, (∀ e ∈ cs, e.1 ≠ m) →
      findField (cs.foldl applyCast fs) m = findField fs m := by
  induction cs with
  | nil => intro fs _; rfl
  | cons e es ih =>
    intro fs h
    rw [List.foldl_cons, ih _ (fun x hx => h x (List.mem_cons_of_mem e hx))]
    exact findField_applyCast_ne fs e m (h e (List.mem_cons_self e es))

theorem findField_castsFold_self (cs : List (String × String)) :
    ∀ (fs : List ModelField) (n c : String),
      cs.Pairwise (fun a b => a.1 ≠ b.1) → (n, c) ∈ cs → n ≠ "" → c ≠ "" →
      ∃ f, findField (cs.foldl applyCast fs) n = some f ∧ f.type = castToType c := by
  induction cs with
  | nil => intro fs n c _ hmem; cases hmem
  | cons e es ih =>
    intro fs n c hpw hmem hn hc
    rw [List.foldl_cons]
    rcases List.mem_cons.mp hmem with heq | hmem
    · obtain ⟨g, hg, ht⟩ := findField_applyCastInner_self n c fs
      refine ⟨g, ?_, ht⟩
      rw [findField_castsFold_ne es n _
        (fun x hx => by
          have := (List.pairwise_cons.mp hpw).1 x hx
          rw [← heq] at this
          exact fun hxn => this hxn.symm)]
      unfold applyCast
      rw [← heq]
      rw [if_pos ⟨hn, hc⟩]
      exact hg
    · exact ih _ n c (List.pairwise_cons.mp hpw).2 hmem hn hc

/-- Claim C1: field provenance precedence.  A migration-derived column for
the model's table overrides type, nullability and default last (stated for
migration column lists with pairwise distinct names, which is what
parseMigrationFile produces); a casts entry refines the type over the
string/non-null start of a fillable or hidden entry whenever no migration
column of that name exists; and on the pinned example — fillable title, cast
title to integer, migration column title string nullable — the resolved
field has type string and nullable true. -/
theorem C1_field_provenance_precedence :
    (∀ (fillable hidden : List String) (casts : List (String × String))
        (migFields : List ModelField) (mf : ModelField),
      migFields.Pairwise (fun a b => a.name ≠ b.name) → mf ∈ migFields →
      findField (parseModelFields fillable hidden casts migFields) mf.name = some mf) ∧
    (∀ (fillable hidden : List String) (casts : List (String × String))
        (migFields : List ModelField) (n c : String),
      casts.Pairwise (fun a b => a.1 ≠ b.1) → (n, c) ∈ casts → n ≠ "" → c ≠ "" →
      (∀ mf ∈ migFields, mf.name ≠ n) →
      ∃ f, findField (parseModelFields fillable hidden casts migFields) n = some f ∧
        f.type = castToType c) ∧
    findField (parseModelFields ["title"] [] [("title", "integer")]
      [⟨"title", "string", true, none⟩]) "title"
      = some ⟨"title", "string", true, none⟩ := by
  refine ⟨?_, ?_, by decide⟩
  · intro fillable hidden casts migFields mf hpw hmem
    simp only [parseModelFields, parseModelFieldsCore]
    exact findField_defaultsFold_of_some defaultFields _ _ _
      (findField_migsFold_self migFields _ mf hpw hmem)
  · intro fillable hidden casts migFields n c hpw hmem hn hc hmigs
    simp only [parseModelFields, parseModelFieldsCore]
    obtain ⟨f, hf, ht⟩ := findField_castsFold_self casts _ n c hpw hmem hn hc
    refine ⟨f, ?_, ht⟩
    apply findField_defaultsFold_of_some
    rw [findField_migsFold_ne migFields n _ hmigs]
    exact hf

/-- Claim C9: every synthesized model carries a field id of type integer and
fields created_at and updated_at of type datetime, unless a field of the
same name was already produced by the fillable/hidden/casts properties or
the migration merge, in which case that field is kept unchanged. -/
theorem C9_implicit_fields (fillable hidden : List String)
    (casts : List (String × String)) (migFields : List ModelField) :
    (findField (parseModelFields fillable hidden casts migFields) "id"
      = some ((findField (parseModelFieldsCore fillable hidden casts migFields)
          "id").getD ⟨"id", "integer", false, none⟩)) ∧
    (findField (parseModelFields fillable hidden casts migFields) "created_at"
      = some ((findField (parseModelFieldsCore fillable hidden casts migFields)
          "created_at").getD ⟨"created_at", "datetime", false, none⟩)) ∧
    (findField (parseModelFields fillable hidden casts migFields) "updated_at"
      = some ((findField (parseModelFieldsCore fillable hidden casts migFields)
          "updated_at").getD ⟨"updated_at", "datetime", false, none⟩)) := by
  have hexp : parseModelFields fillable hidden casts migFields
      = addDefaultField (addDefaultField (addDefaultField
          (parseModelFieldsCore fillable hidden casts migFields)
          ("id", "integer")) ("created_at", "datetime")) ("updated_at", "datetime") := by
    simp [parseModelFields, defaultFields]
  refine ⟨?_, ?_, ?_⟩
  · rw [hexp,
      findField_addDefaultField_ne _ ("updated_at", "datetime") "id" (by decide),
      findField_addDefaultField_ne _ ("created_at", "datetime") "id" (by decide),
      findField_addDefaultField_self _ ("id", "integer")]
  · rw [hexp,
      findField_addDefaultField_ne _ ("updated_at", "datetime") "created_at" (by decide),
      findField_addDefaultField_self _ ("created_at", "datetime"),
      findField_addDefaultField_ne _ ("id", "integer") "created_at" (by decide)]
  · rw [hexp,
      findField_addDefaultField_self _ ("updated_at", "datetime"),
      findField_addDefaultField_ne _ ("created_at", "datetime") "updated_at" (by decide),
      findField_addDefaultField_ne _ ("id", "integer") "updated_at" (by decide)]

theorem C9_implicit_fields_witness :
    findField (parseModelFields [] [] [] []) "id" = some ⟨"id", "integer", false, none⟩ := by
  have h := (C9_implicit_fields [] [] [] []).1
  simpa using h

theorem ltCharList_asymm (a : List Char) :
    ∀ b : List Char, ltCharList a b = true → ltCharList b a = false := by
  induction a with
  | nil =>
    intro b h
    cases b with
    | nil => simp [ltCharList] at h
    | cons y ys => simp [ltCharList]
  | cons x xs ih =>
    intro b h
    cases b with
    | nil => simp [ltCharList] at h
    | cons y ys =>
      simp only [ltCharList] at h ⊢
      by_cases h1 : x.toNat < y.toNat
      · have h2 : ¬ y.toNat < x.toNat := by omega
        simp [h1, h2]
      · by_cases h2 : y.toNat < x.toNat
        · simp [h1, h2] at h
        · simp only [if_neg h1, if_neg h2] at h ⊢
          exact ih ys h

theorem stringLt_asymm (a b : String) (h : stringLt a b = true) :
    stringLt b a = false :=
  ltCharList_asymm a.toList b.toList h

/-- Claim C5: with two single-column migration files for the same table
defining the same column name, the file whose name sorts later is processed
last regardless of input order, and its column definition replaces the
earlier one in the synthesized field list. -/
theorem C5_later_migration_wins (t n tyA tyB : String)
    (modsA modsB : List ColumnModifier) (fnameA fnameB : String)
    (h : stringLt fnameA fnameB = true) :
    getTable (analyzeMigrations
      [⟨fnameB, some t, [(tyB, n, modsB)], []⟩,
       ⟨fnameA, some t, [(tyA, n, modsA)], []⟩]) t
      = some [⟨n, migrationTypeToType tyB, modsNullable modsB, modsDefault modsB⟩] := by
  have hBA : stringLt fnameB fnameA = false := stringLt_asymm _ _ h
  simp [analyzeMigrations, sortByFilename, insertByFilename, hBA,
        parseMigrationFile, getTable, setTable, upsertColumn, columnToField,
        List.find?]

/-- The pinned scenario: the migration creating orders.status non-null, then
an alphabetically later migration redefining status as nullable (the files
are listed out of order to exercise the filename sort). -/
theorem C5_later_migration_wins_witness :
    getTable (analyzeMigrations
      [⟨"2023_06_01_update_orders", some "orders",
        [("string", "status", [ColumnModifier.nullable])], []⟩,
       ⟨"2023_01_01_create_orders", some "orders",
        [("string", "status", [])], []⟩]) "orders"
      = some [⟨"status", "string", true, none⟩] := by
  have h := C5_later_migration_wins "orders" "status" "string" "string"
    [] [ColumnModifier.nullable]
    "2023_01_01_create_orders" "2023_06_01_update_orders" (by decide)
  simpa [migrationTypeToType, modsNullable, modsDefault] using h

end LaravelEnhanced
